import Mathlib

/-!
Shallow embedding of the tic-tac-toe engine from `src/main.rs` and proofs
about its board state machine.

The Rust `Game` struct holds a 3×3 board of `Tile`s, the active `player`,
the `winner`, a `u8` turn counter and an `over` flag.  `Game::play` marks
the targeted cell when it is empty, increments the turn counter, and then
evaluates the outcome: win check (`is_complete`), tie check (`is_tie`,
i.e. `turn == 9`), else it toggles the active player (panicking on an
`Empty` player).  Fallible paths (the out-of-bounds board index for a flat
index ≥ 9, the `Empty`-player panic) are modelled by `Option`; the `u8`
turn counter is modelled by a natural number reduced modulo 256.
-/

set_option autoImplicit false

namespace TicTacToe

/-- Rust `enum Tile { X, O, Empty }`. -/
inductive Tile where
  | X
  | O
  | Empty
deriving DecidableEq

/-- The 3×3 board, Rust's `[Row; 3]` with `Row = { tiles: [Tile; 3] }`,
as a function from row and column index to the tile stored there. -/
abbrev Board := Fin 3 → Fin 3 → Tile

/-- `Row::new` for all three rows: the all-empty board of `Game::new`. -/
def emptyBoard : Board := fun _ _ => Tile.Empty

/-- `<[Tile; 3] as Completable>::is_complete`: every tile of the line
equals the given tile (`self.iter().all(|t| *t == tile)`). -/
def lineIsComplete (l : Fin 3 → Tile) (t : Tile) : Bool :=
  (l 0 == t) && (l 1 == t) && (l 2 == t)

/-- A row of the board, as a line. -/
def rowLine (b : Board) (r : Fin 3) : Fin 3 → Tile := b r

/-- One column of `Game::cols`, gathered as a line. -/
def colLine (b : Board) (c : Fin 3) : Fin 3 → Tile := fun k => b k c

/-- First diagonal of `Game::diagonals`: `b[0][0], b[1][1], b[2][2]`. -/
def diag1 (b : Board) : Fin 3 → Tile := fun k => b k k

/-- Second diagonal of `Game::diagonals`: `b[0][2], b[1][1], b[2][0]`. -/
def diag2 (b : Board) : Fin 3 → Tile := ![b 0 2, b 1 1, b 2 0]

/-- `Game::any_row_complete`. -/
def anyRowComplete (b : Board) (t : Tile) : Bool :=
  lineIsComplete (rowLine b 0) t || lineIsComplete (rowLine b 1) t ||
    lineIsComplete (rowLine b 2) t

/-- `Game::any_col_complete`. -/
def anyColComplete (b : Board) (t : Tile) : Bool :=
  lineIsComplete (colLine b 0) t || lineIsComplete (colLine b 1) t ||
    lineIsComplete (colLine b 2) t

/-- `Game::any_diagonal_complete`. -/
def anyDiagonalComplete (b : Board) (t : Tile) : Bool :=
  lineIsComplete (diag1 b) t || lineIsComplete (diag2 b) t

/-- Body of `Game::is_complete`, as a function of the board. -/
def isCompleteB (b : Board) : Bool :=
  anyRowComplete b Tile.X || anyRowComplete b Tile.O ||
  anyDiagonalComplete b Tile.X || anyDiagonalComplete b Tile.O ||
  anyColComplete b Tile.X || anyColComplete b Tile.O

/-- Rust `struct Game`. The `u8` turn counter is a natural number kept
below 256 by the wrap-around in `Game.incTurn`. -/
structure Game where
  board : Board
  player : Tile
  winner : Tile
  turn : Nat
  over : Bool
deriving DecidableEq

/-- `Game::new`. -/
def Game.new : Game :=
  { board := emptyBoard, player := Tile.X, winner := Tile.Empty,
    turn := 0, over := false }

/-- `Game::is_complete`. -/
def Game.isComplete (g : Game) : Bool := isCompleteB g.board

/-- `Game::is_tie`: `self.turn == 9`. -/
def Game.isTie (g : Game) : Bool := g.turn == 9

/-- `index / 3` as a row index.  For `index ≤ 8` the extra `% 3` is the
identity; `Game.play` guards with `index < 9`, matching the panic the Rust
board indexing raises for larger indices. -/
def rowIdx (i : Nat) : Fin 3 := ⟨i / 3 % 3, by omega⟩

/-- `index % 3` as a column index. -/
def colIdx (i : Nat) : Fin 3 := ⟨i % 3, by omega⟩

/-- `self.board[index / 3].tiles[index % 3]`. -/
def cellAt (g : Game) (i : Nat) : Tile := g.board (rowIdx i) (colIdx i)

/-- Writing one cell of the board, leaving every other cell alone. -/
def setCell (b : Board) (r c : Fin 3) (t : Tile) : Board :=
  fun r' c' => if r' = r ∧ c' = c then t else b r' c'

/-- The marking step of `Game::play`: `if board[row][col] == Empty
{ board[row][col] = player }`. -/
def Game.markAt (g : Game) (i : Nat) : Game :=
  if cellAt g i = Tile.Empty then
    { g with board := setCell g.board (rowIdx i) (colIdx i) g.player }
  else g

/-- `self.turn += 1` on a `u8` (wrapping semantics, modulus 256). -/
def Game.incTurn (g : Game) : Game := { g with turn := (g.turn + 1) % 256 }

/-- The outcome evaluation of `Game::play`: win check, then tie check,
then player toggle; `none` models the `panic!("Invalid player")` branch. -/
def Game.evalOutcome (g : Game) : Option Game :=
  if g.isComplete then some { g with winner := g.player, over := true }
  else if g.isTie then some { g with over := true }
  else
    match g.player with
    | Tile.X => some { g with player := Tile.O }
    | Tile.O => some { g with player := Tile.X }
    | Tile.Empty => none

/-- `Game::play`: mark attempt, turn increment, outcome evaluation.
`none` models a panic (flat index out of range, or the `Empty`-player
toggle). -/
def Game.play (g : Game) (i : Nat) : Option Game :=
  if i < 9 then ((g.markAt i).incTurn).evalOutcome else none

/-- Running a list of moves in order; `none` as soon as one panics. -/
def playSeq (g : Game) : List Nat → Option Game
  | [] => some g
  | i :: rest =>
    match g.play i with
    | some g' => playSeq g' rest
    | none => none

/-- The eight lines of the board: the three rows, the three columns, the
two diagonals. -/
def lineCells (b : Board) : Fin 8 → Fin 3 → Tile
  | ⟨0, _⟩ => rowLine b 0
  | ⟨1, _⟩ => rowLine b 1
  | ⟨2, _⟩ => rowLine b 2
  | ⟨3, _⟩ => colLine b 0
  | ⟨4, _⟩ => colLine b 1
  | ⟨5, _⟩ => colLine b 2
  | ⟨6, _⟩ => diag1 b
  | ⟨7, _⟩ => diag2 b

/-- Board position of the `k`-th cell of the `i`-th line. -/
def linePos : Fin 8 → Fin 3 → Fin 3 × Fin 3 :=
  ![![(0, 0), (0, 1), (0, 2)],
    ![(1, 0), (1, 1), (1, 2)],
    ![(2, 0), (2, 1), (2, 2)],
    ![(0, 0), (1, 0), (2, 0)],
    ![(0, 1), (1, 1), (2, 1)],
    ![(0, 2), (1, 2), (2, 2)],
    ![(0, 0), (1, 1), (2, 2)],
    ![(0, 2), (1, 1), (2, 0)]]

/-- Some line of the board is entirely filled with the tile `t`. -/
def hasLine (b : Board) (t : Tile) : Prop :=
  ∃ i : Fin 8, ∀ k : Fin 3, lineCells b i k = t

/-- Modelled from the spec: "some row, column, or diagonal is fully
occupied by a single non-Empty mark". -/
def SpecComplete (b : Board) : Prop :=
  ∃ i : Fin 8, ∃ t : Tile, t ≠ Tile.Empty ∧ ∀ k : Fin 3, lineCells b i k = t

/-- The opposing mark; `Empty` has no opponent. -/
def otherT : Tile → Tile
  | Tile.X => Tile.O
  | Tile.O => Tile.X
  | Tile.Empty => Tile.Empty

/-- Number of non-empty cells on the board. -/
def countB (b : Board) : Nat :=
  (Finset.univ.filter fun p : Fin 3 × Fin 3 => b p.1 p.2 ≠ Tile.Empty).card

/-- States reachable from `Game.new` by in-range `play` calls whose steps
all satisfy the side condition `P`. -/
inductive ReachableVia (P : Game → Nat → Prop) : Game → Prop where
  | init : ReachableVia P Game.new
  | step {g g' : Game} {i : Nat} : ReachableVia P g → i ≤ 8 → P g i →
      g.play i = some g' → ReachableVia P g'

/-- States reachable by arbitrary in-range `play` calls. -/
abbrev Reachable : Game → Prop := ReachableVia fun _ _ => True

/-- Side condition: the move is issued while the game is not over. -/
abbrev notOverP (g : Game) (_ : Nat) : Prop := g.over = false

/-- Side condition: the move targets an empty cell. -/
abbrev emptyTargetP (g : Game) (i : Nat) : Prop := cellAt g i = Tile.Empty

/-- Side condition of a fully legal move: game not over, target empty. -/
abbrev legalP (g : Game) (i : Nat) : Prop :=
  g.over = false ∧ cellAt g i = Tile.Empty

/-! ### Lines -/

lemma lineIsComplete_iff (l : Fin 3 → Tile) (t : Tile) :
    lineIsComplete l t = true ↔ ∀ k : Fin 3, l k = t := by
  simp only [lineIsComplete, Bool.and_eq_true, beq_iff_eq]
  constructor
  · rintro ⟨⟨h0, h1⟩, h2⟩ k
    fin_cases k <;> assumption
  · intro h
    exact ⟨⟨h 0, h 1⟩, h 2⟩

lemma lineCells_pos (b : Board) (i : Fin 8) (k : Fin 3) :
    lineCells b i k = b (linePos i k).1 (linePos i k).2 := by
  fin_cases i <;> fin_cases k <;> rfl

set_option maxHeartbeats 1000000 in
lemma hasLine_isCompleteB {b : Board} {t : Tile} (ht : t ≠ Tile.Empty)
    (h : hasLine b t) : isCompleteB b = true := by
  rcases h with ⟨i, hall⟩
  have hb := (lineIsComplete_iff (lineCells b i) t).mpr hall
  simp only [isCompleteB, anyRowComplete, anyColComplete, anyDiagonalComplete,
    Bool.or_eq_true]
  cases t with
  | Empty => exact absurd rfl ht
  | X => fin_cases i <;> simp only [lineCells] at hb <;> tauto
  | O => fin_cases i <;> simp only [lineCells] at hb <;> tauto

lemma orE {a b : Bool} (h : (a || b) = true) : a = true ∨ b = true :=
  Bool.or_eq_true a b |>.mp h

lemma isCompleteB_hasLine {b : Board} (h : isCompleteB b = true) :
    hasLine b Tile.X ∨ hasLine b Tile.O := by
  have mk : ∀ (i : Fin 8) (t : Tile),
      lineIsComplete (lineCells b i) t = true → hasLine b t :=
    fun i t hh => ⟨i, (lineIsComplete_iff _ _).mp hh⟩
  simp only [isCompleteB, anyRowComplete, anyColComplete, anyDiagonalComplete] at h
  rcases orE h with h | hcO
  · rcases orE h with h | hcX
    · rcases orE h with h | hdO
      · rcases orE h with h | hdX
        · rcases orE h with hrX | hrO
          · rcases orE hrX with h | h2
            · rcases orE h with h0 | h1
              · exact Or.inl (mk 0 Tile.X h0)
              · exact Or.inl (mk 1 Tile.X h1)
            · exact Or.inl (mk 2 Tile.X h2)
          · rcases orE hrO with h | h2
            · rcases orE h with h0 | h1
              · exact Or.inr (mk 0 Tile.O h0)
              · exact Or.inr (mk 1 Tile.O h1)
            · exact Or.inr (mk 2 Tile.O h2)
        · rcases orE hdX with h6 | h7
          · exact Or.inl (mk 6 Tile.X h6)
          · exact Or.inl (mk 7 Tile.X h7)
      · rcases orE hdO with h6 | h7
        · exact Or.inr (mk 6 Tile.O h6)
        · exact Or.inr (mk 7 Tile.O h7)
    · rcases orE hcX with h | h5
      · rcases orE h with h3 | h4
        · exact Or.inl (mk 3 Tile.X h3)
        · exact Or.inl (mk 4 Tile.X h4)
      · exact Or.inl (mk 5 Tile.X h5)
  · rcases orE hcO with h | h5
    · rcases orE h with h3 | h4
      · exact Or.inr (mk 3 Tile.O h3)
      · exact Or.inr (mk 4 Tile.O h4)
    · exact Or.inr (mk 5 Tile.O h5)

/-! ### Cell updates -/

lemma setCell_self (b : Board) (r c : Fin 3) (t : Tile) :
    setCell b r c t r c = t := by
  simp [setCell]

lemma setCell_ne (b : Board) (r c : Fin 3) (t : Tile) (r' c' : Fin 3)
    (h : ¬(r' = r ∧ c' = c)) : setCell b r c t r' c' = b r' c' := by
  simp [setCell, h]

lemma hasLine_setCell {b : Board} {t : Tile} (r c : Fin 3) (u : Tile)
    (ht : t ≠ Tile.Empty) (hb : b r c = Tile.Empty) (h : hasLine b t) :
    hasLine (setCell b r c u) t := by
  rcases h with ⟨i, hall⟩
  have hall' : ∀ k, b (linePos i k).1 (linePos i k).2 = t :=
    fun k => (lineCells_pos b i k).symm.trans (hall k)
  refine ⟨i, fun k => ?_⟩
  rw [lineCells_pos]
  by_cases hpos : (linePos i k).1 = r ∧ (linePos i k).2 = c
  · exfalso
    have hrc : b r c = t := by rw [← hpos.1, ← hpos.2]; exact hall' k
    exact ht (hrc ▸ hb)
  · rw [setCell_ne _ _ _ _ _ _ hpos]
    exact hall' k

lemma newLine_of_setCell {b : Board} {r c : Fin 3} {u : Tile}
    (h0 : isCompleteB b = false) (h1 : isCompleteB (setCell b r c u) = true) :
    u ≠ Tile.Empty ∧ hasLine (setCell b r c u) u := by
  have aux : ∀ t : Tile, t ≠ Tile.Empty → hasLine (setCell b r c u) t → u = t := by
    intro t ht ⟨i, hall⟩
    have hall' : ∀ k, setCell b r c u (linePos i k).1 (linePos i k).2 = t :=
      fun k => (lineCells_pos _ i k).symm.trans (hall k)
    by_cases hex : ∃ k, linePos i k = (r, c)
    · rcases hex with ⟨k0, hk⟩
      have := hall' k0
      rw [hk] at this
      simpa [setCell_self] using this
    · push_neg at hex
      exfalso
      have hline : hasLine b t := by
        refine ⟨i, fun k => ?_⟩
        rw [lineCells_pos]
        have hk := hall' k
        rw [setCell_ne _ _ _ _ _ _ (by
          intro hand
          exact hex k (Prod.ext hand.1 hand.2))] at hk
        exact hk
      exact absurd (hasLine_isCompleteB ht hline) (by simp [h0])
  rcases isCompleteB_hasLine h1 with h | h
  · have hu := aux Tile.X (by simp) h
    subst hu
    exact ⟨by simp, h⟩
  · have hu := aux Tile.O (by simp) h
    subst hu
    exact ⟨by simp, h⟩

instance (b : Board) (t : Tile) : Decidable (hasLine b t) := by
  unfold hasLine; infer_instance

/-! ### Unfolding lemmas for the steps of `Game.play` -/

lemma markAt_board (g : Game) (i : Nat) :
    (g.markAt i).board =
      if cellAt g i = Tile.Empty then setCell g.board (rowIdx i) (colIdx i) g.player
      else g.board := by
  unfold Game.markAt
  split <;> simp [*]

lemma markAt_player (g : Game) (i : Nat) : (g.markAt i).player = g.player := by
  unfold Game.markAt
  split <;> rfl

lemma markAt_winner (g : Game) (i : Nat) : (g.markAt i).winner = g.winner := by
  unfold Game.markAt
  split <;> rfl

lemma markAt_turn (g : Game) (i : Nat) : (g.markAt i).turn = g.turn := by
  unfold Game.markAt
  split <;> rfl

lemma markAt_over (g : Game) (i : Nat) : (g.markAt i).over = g.over := by
  unfold Game.markAt
  split <;> rfl

lemma mstate_player (s : Game) (i : Nat) : ((s.markAt i).incTurn).player = s.player := by
  simp [Game.incTurn, markAt_player]

lemma mstate_winner (s : Game) (i : Nat) : ((s.markAt i).incTurn).winner = s.winner := by
  simp [Game.incTurn, markAt_winner]

lemma mstate_over (s : Game) (i : Nat) : ((s.markAt i).incTurn).over = s.over := by
  simp [Game.incTurn, markAt_over]

lemma mstate_turn (s : Game) (i : Nat) :
    ((s.markAt i).incTurn).turn = (s.turn + 1) % 256 := by
  simp [Game.incTurn, markAt_turn]

lemma mstate_board (s : Game) (i : Nat) :
    ((s.markAt i).incTurn).board = (s.markAt i).board := rfl

lemma evalOutcome_win {g : Game} (h : g.isComplete = true) :
    g.evalOutcome = some { g with winner := g.player, over := true } := by
  simp [Game.evalOutcome, h]

lemma evalOutcome_tie {g : Game} (h1 : g.isComplete = false) (h2 : g.isTie = true) :
    g.evalOutcome = some { g with over := true } := by
  simp [Game.evalOutcome, h1, h2]

lemma evalOutcome_toggle {g : Game} (h1 : g.isComplete = false) (h2 : g.isTie = false) :
    g.evalOutcome =
      match g.player with
      | Tile.X => some { g with player := Tile.O }
      | Tile.O => some { g with player := Tile.X }
      | Tile.Empty => none := by
  simp [Game.evalOutcome, h1, h2]

lemma evalOutcome_cases {g g' : Game} (h : g.evalOutcome = some g') :
    (g.isComplete = true ∧ g' = { g with winner := g.player, over := true }) ∨
    (g.isComplete = false ∧ g.isTie = true ∧ g' = { g with over := true }) ∨
    (g.isComplete = false ∧ g.isTie = false ∧ g.player ≠ Tile.Empty ∧
      g' = { g with player := otherT g.player }) := by
  by_cases hc : g.isComplete = true
  · rw [evalOutcome_win hc] at h
    injection h with h2
    exact Or.inl ⟨hc, h2.symm⟩
  · have hc' : g.isComplete = false := by simpa using hc
    by_cases htie : g.isTie = true
    · rw [evalOutcome_tie hc' htie] at h
      injection h with h2
      exact Or.inr (Or.inl ⟨hc', htie, h2.symm⟩)
    · have htie' : g.isTie = false := by simpa using htie
      rw [evalOutcome_toggle hc' htie'] at h
      cases hpl : g.player with
      | X =>
        rw [hpl] at h
        injection h with h2
        exact Or.inr (Or.inr ⟨hc', htie', by simp [hpl], h2.symm⟩)
      | O =>
        rw [hpl] at h
        injection h with h2
        exact Or.inr (Or.inr ⟨hc', htie', by simp [hpl], h2.symm⟩)
      | Empty =>
        rw [hpl] at h
        exact absurd h (by simp)

lemma play_none_of_ge {s : Game} {i : Nat} (hi : ¬ i < 9) : s.play i = none := by
  simp [Game.play, hi]

lemma play_lt {s g' : Game} {i : Nat} (hp : s.play i = some g') : i < 9 := by
  by_contra hi
  rw [play_none_of_ge hi] at hp
  cases hp

lemma play_eq {s : Game} {i : Nat} (hi : i < 9) :
    s.play i = ((s.markAt i).incTurn).evalOutcome := by
  simp [Game.play, hi]

/-! ### The reachability invariant -/

/-- The state invariant maintained by `Game.play` from `Game.new`:
the active player is a real mark, a completed board always contains a
line of the active player, a set winner implies a finished game with the
winner still active and still owning a line, an unfinished game has no
winner and no completed line, and the turn counter fits in a `u8`. -/
def Inv (g : Game) : Prop :=
  g.player ≠ Tile.Empty ∧
  (g.isComplete = true → hasLine g.board g.player) ∧
  (g.winner ≠ Tile.Empty → g.winner = g.player ∧ g.over = true ∧
    hasLine g.board g.winner) ∧
  (g.over = false → g.winner = Tile.Empty ∧ g.isComplete = false) ∧
  g.turn ≤ 255

lemma hasLine_markAt {s : Game} {t : Tile} (i : Nat) (ht : t ≠ Tile.Empty)
    (h : hasLine s.board t) : hasLine (s.markAt i).board t := by
  rw [markAt_board]
  split
  case isTrue hcell => exact hasLine_setCell _ _ _ ht hcell h
  case isFalse hcell => exact h

lemma mark_hasLine_player {s : Game} (i : Nat) (hP : s.player ≠ Tile.Empty)
    (hC : s.isComplete = true → hasLine s.board s.player)
    (hc : (s.markAt i).isComplete = true) :
    hasLine (s.markAt i).board s.player := by
  by_cases hb : s.isComplete = true
  · exact hasLine_markAt i hP (hC hb)
  · have hb' : isCompleteB s.board = false := by
      simpa [Game.isComplete] using hb
    by_cases hcell : cellAt s i = Tile.Empty
    · have hc' : isCompleteB (setCell s.board (rowIdx i) (colIdx i) s.player) = true := by
        simpa [Game.isComplete, markAt_board, if_pos hcell] using hc
      rw [markAt_board, if_pos hcell]
      exact (newLine_of_setCell hb' hc').2
    · exfalso
      have hc' : isCompleteB s.board = true := by
        simpa [Game.isComplete, markAt_board, if_neg hcell] using hc
      simp [hc'] at hb'

lemma winner_empty_of_mark_incomplete {s : Game} (i : Nat) (hP : s.player ≠ Tile.Empty)
    (hW : s.winner ≠ Tile.Empty → s.winner = s.player ∧ s.over = true ∧
      hasLine s.board s.winner)
    (hcompl : (s.markAt i).isComplete = false) : s.winner = Tile.Empty := by
  by_contra hne
  obtain ⟨hw1, _, hw3⟩ := hW hne
  have hL : hasLine (s.markAt i).board s.player := by
    rw [← hw1]
    exact hasLine_markAt i hne hw3
  exact absurd (hasLine_isCompleteB hP hL) (by simpa [Game.isComplete] using hcompl)

lemma inv_play {s g' : Game} {i : Nat} (hs : Inv s) (hp : s.play i = some g') :
    Inv g' := by
  obtain ⟨hP, hC, hW, hO, hT⟩ := hs
  have hi : i < 9 := play_lt hp
  rw [play_eq hi] at hp
  have hmP := mstate_player s i
  have hmW := mstate_winner s i
  have hmO := mstate_over s i
  have hmT := mstate_turn s i
  have hturn : ((s.markAt i).incTurn).turn ≤ 255 := by
    rw [hmT]; omega
  rcases evalOutcome_cases hp with ⟨hc, hg⟩ | ⟨hc, htie, hg⟩ | ⟨hc, htie, hpl, hg⟩
  · -- win branch
    have hcompl : (s.markAt i).isComplete = true := hc
    have hL : hasLine (s.markAt i).board s.player := mark_hasLine_player i hP hC hcompl
    subst hg
    refine ⟨?_, ?_, ?_, ?_, ?_⟩
    · show ((s.markAt i).incTurn).player ≠ Tile.Empty
      rw [hmP]; exact hP
    · intro _
      show hasLine ((s.markAt i).incTurn).board ((s.markAt i).incTurn).player
      rw [mstate_board, hmP]; exact hL
    · intro _
      refine ⟨rfl, rfl, ?_⟩
      show hasLine ((s.markAt i).incTurn).board ((s.markAt i).incTurn).player
      rw [mstate_board, hmP]; exact hL
    · intro hov
      exact absurd hov (by simp)
    · exact hturn
  · -- tie branch
    have hcompl : (s.markAt i).isComplete = false := hc
    have hwE : s.winner = Tile.Empty := winner_empty_of_mark_incomplete i hP hW hcompl
    subst hg
    refine ⟨?_, ?_, ?_, ?_, ?_⟩
    · show ((s.markAt i).incTurn).player ≠ Tile.Empty
      rw [hmP]; exact hP
    · intro hcc
      exact absurd (show ((s.markAt i).incTurn).isComplete = true from hcc) (by simp [hc])
    · intro hne
      exact absurd (show ((s.markAt i).incTurn).winner = Tile.Empty by rw [hmW, hwE]) hne
    · intro hov
      exact absurd hov (by simp)
    · exact hturn
  · -- toggle branch
    have hcompl : (s.markAt i).isComplete = false := hc
    have hwE : s.winner = Tile.Empty := winner_empty_of_mark_incomplete i hP hW hcompl
    subst hg
    refine ⟨?_, ?_, ?_, ?_, ?_⟩
    · show otherT ((s.markAt i).incTurn).player ≠ Tile.Empty
      rw [hmP]
      cases hq : s.player with
      | X => simp [otherT]
      | O => simp [otherT]
      | Empty => exact absurd hq hP
    · intro hcc
      exact absurd (show ((s.markAt i).incTurn).isComplete = true from hcc) (by simp [hc])
    · intro hne
      exact absurd (show ((s.markAt i).incTurn).winner = Tile.Empty by rw [hmW, hwE]) hne
    · intro _
      constructor
      · show ((s.markAt i).incTurn).winner = Tile.Empty
        rw [hmW, hwE]
      · show ((s.markAt i).incTurn).isComplete = false
        exact hc
    · exact hturn

lemma inv_new : Inv Game.new := by
  unfold Inv
  refine ⟨by decide, ?_, ?_, ?_, by decide⟩
  · intro h
    exact absurd h (by decide)
  · intro h
    exact absurd h (by decide)
  · intro _
    exact ⟨by decide, by decide⟩

lemma inv_of_reachableVia {P : Game → Nat → Prop} {g : Game}
    (h : ReachableVia P g) : Inv g := by
  induction h with
  | init => exact inv_new
  | step _ _ _ hp ih => exact inv_play ih hp

/-! ### Step lemmas shared by the claims -/

lemma play_board_turn {s g' : Game} {i : Nat} (hp : s.play i = some g') :
    g'.board = (s.markAt i).board ∧ g'.turn = (s.turn + 1) % 256 := by
  have hi := play_lt hp
  rw [play_eq hi] at hp
  rcases evalOutcome_cases hp with ⟨_, hg⟩ | ⟨_, _, hg⟩ | ⟨_, _, _, hg⟩ <;>
    subst hg <;> exact ⟨mstate_board s i, mstate_turn s i⟩

lemma play_over_mono {s g' : Game} {i : Nat} (hp : s.play i = some g')
    (h : s.over = true) : g'.over = true := by
  have hi := play_lt hp
  rw [play_eq hi] at hp
  rcases evalOutcome_cases hp with ⟨_, hg⟩ | ⟨_, _, hg⟩ | ⟨_, _, _, hg⟩ <;> subst hg
  · rfl
  · rfl
  · show ((s.markAt i).incTurn).over = true
    rw [mstate_over]
    exact h

lemma play_over_false {s g' : Game} {i : Nat} (hp : s.play i = some g')
    (h : g'.over = false) :
    s.over = false ∧ s.player ≠ Tile.Empty ∧ g'.player = otherT s.player := by
  have hi := play_lt hp
  rw [play_eq hi] at hp
  rcases evalOutcome_cases hp with ⟨_, hg⟩ | ⟨_, _, hg⟩ | ⟨_, _, hpl, hg⟩
  · subst hg; simp at h
  · subst hg; simp at h
  · subst hg
    have ho : ((s.markAt i).incTurn).over = false := h
    refine ⟨by rw [← mstate_over s i]; exact ho, by rwa [mstate_player s i] at hpl, ?_⟩
    show otherT ((s.markAt i).incTurn).player = otherT s.player
    rw [mstate_player]

lemma play_isSome {s : Game} {i : Nat} (hP : s.player ≠ Tile.Empty) (hi : i ≤ 8) :
    ∃ g', s.play i = some g' := by
  rw [play_eq (by omega)]
  by_cases hc : ((s.markAt i).incTurn).isComplete = true
  · exact ⟨_, evalOutcome_win hc⟩
  · have hc' : ((s.markAt i).incTurn).isComplete = false := by simpa using hc
    by_cases ht : ((s.markAt i).incTurn).isTie = true
    · exact ⟨_, evalOutcome_tie hc' ht⟩
    · have ht' : ((s.markAt i).incTurn).isTie = false := by simpa using ht
      rw [evalOutcome_toggle hc' ht', mstate_player]
      cases hq : s.player with
      | X => exact ⟨_, rfl⟩
      | O => exact ⟨_, rfl⟩
      | Empty => exact absurd hq hP

lemma playSeq_cons_some {g gf : Game} {i : Nat} {rest : List Nat}
    (h : playSeq g (i :: rest) = some gf) :
    ∃ g', g.play i = some g' ∧ playSeq g' rest = some gf := by
  cases hq : g.play i with
  | none => simp [playSeq, hq] at h
  | some g' =>
    refine ⟨g', rfl, ?_⟩
    simpa [playSeq, hq] using h

lemma playSeq_over_mono {ms : List Nat} : ∀ {g gf : Game},
    playSeq g ms = some gf → g.over = true → gf.over = true := by
  induction ms with
  | nil =>
    intro g gf h hov
    simp [playSeq] at h
    rwa [← h]
  | cons i rest ih =>
    intro g gf h hov
    obtain ⟨g', hq, h'⟩ := playSeq_cons_some h
    exact ih h' (play_over_mono hq hov)

lemma reachable_playSeq {ms : List Nat} : ∀ {g gf : Game},
    playSeq g ms = some gf → Reachable g → Reachable gf := by
  induction ms with
  | nil =>
    intro g gf h hr
    simp [playSeq] at h
    exact h ▸ hr
  | cons i rest ih =>
    intro g gf h hr
    obtain ⟨g', hq, h'⟩ := playSeq_cons_some h
    have hi : i ≤ 8 := by have := play_lt hq; omega
    exact ih h' (ReachableVia.step hr hi trivial hq)

/-! ### Counting non-empty cells -/

lemma countB_le_eight {b : Board} {r c : Fin 3} (h : b r c = Tile.Empty) :
    countB b ≤ 8 := by
  unfold countB
  have hsub : (Finset.univ.filter fun p : Fin 3 × Fin 3 => b p.1 p.2 ≠ Tile.Empty) ⊆
      Finset.univ.erase (r, c) := by
    intro p hp
    simp only [Finset.mem_filter] at hp
    refine Finset.mem_erase.mpr ⟨?_, Finset.mem_univ p⟩
    rintro rfl
    exact hp.2 h
  have h1 := Finset.card_le_card hsub
  have h2 : (Finset.univ.erase ((r, c) : Fin 3 × Fin 3)).card = 8 := by
    rw [Finset.card_erase_of_mem (Finset.mem_univ _)]
    simp
  omega

lemma countB_setCell {b : Board} {r c : Fin 3} {u : Tile} (hE : b r c = Tile.Empty)
    (hu : u ≠ Tile.Empty) : countB (setCell b r c u) = countB b + 1 := by
  unfold countB
  have hset : (Finset.univ.filter fun p : Fin 3 × Fin 3 =>
        setCell b r c u p.1 p.2 ≠ Tile.Empty) =
      insert ((r, c) : Fin 3 × Fin 3)
        (Finset.univ.filter fun p : Fin 3 × Fin 3 => b p.1 p.2 ≠ Tile.Empty) := by
    ext p
    simp only [Finset.mem_filter, Finset.mem_insert, Finset.mem_univ, true_and]
    by_cases hp : p = (r, c)
    · subst hp
      simp [setCell_self, hu]
    · have hp' : ¬(p.1 = r ∧ p.2 = c) := by
        intro hand
        exact hp (Prod.ext hand.1 hand.2)
      rw [setCell_ne _ _ _ _ _ _ hp']
      simp [hp]
  rw [hset, Finset.card_insert_of_not_mem]
  simp [hE]

lemma play_win {s g' : Game} {i : Nat} (hp : s.play i = some g')
    (hc : (s.markAt i).isComplete = true) :
    g'.winner = s.player ∧ g'.over = true := by
  have hi := play_lt hp
  rw [play_eq hi] at hp
  rcases evalOutcome_cases hp with ⟨_, hg⟩ | ⟨hcf, _, _⟩ | ⟨hcf, _, _, _⟩
  · subst hg
    exact ⟨mstate_player s i, rfl⟩
  · exfalso
    rw [show ((s.markAt i).incTurn).isComplete = true from hc] at hcf
    exact Bool.noConfusion hcf
  · exfalso
    rw [show ((s.markAt i).incTurn).isComplete = true from hc] at hcf
    exact Bool.noConfusion hcf

lemma turn_bound_notOver {s : Game} (hr : ReachableVia notOverP s) :
    s.turn ≤ 9 ∧ (s.over = false → s.turn ≤ 8) := by
  induction hr with
  | init => exact ⟨by decide, fun _ => by decide⟩
  | @step g g' i hprev hle hPm hp ih =>
    obtain ⟨_, ht⟩ := play_board_turn hp
    have h8 : g.turn ≤ 8 := ih.2 hPm
    constructor
    · rw [ht]; omega
    · intro hov'
      have hi9 := play_lt hp
      rw [play_eq hi9] at hp
      rcases evalOutcome_cases hp with ⟨_, hg⟩ | ⟨_, _, hg⟩ | ⟨_, htie, _, hg⟩
      · subst hg; simp at hov'
      · subst hg; simp at hov'
      · subst hg
        have hne9 : ((g.markAt i).incTurn).turn ≠ 9 := by
          intro h9
          unfold Game.isTie at htie
          rw [h9] at htie
          simp at htie
        show ((g.markAt i).incTurn).turn ≤ 8
        rw [mstate_turn] at hne9 ⊢
        omega

lemma playSeq_parity {ms : List Nat} : ∀ {g gf : Game}, playSeq g ms = some gf →
    gf.over = false → g.player ≠ Tile.Empty →
    gf.player = if ms.length % 2 = 0 then g.player else otherT g.player := by
  induction ms with
  | nil =>
    intro g gf h hov hP
    simp [playSeq] at h
    rw [← h]
    simp
  | cons i rest ih =>
    intro g gf h hov hP
    obtain ⟨g', hq, h'⟩ := playSeq_cons_some h
    have hov' : g'.over = false := by
      cases hgo : g'.over with
      | false => rfl
      | true => exact absurd (playSeq_over_mono h' hgo) (by simp [hov])
    obtain ⟨hgov, hgP, hgpl⟩ := play_over_false hq hov'
    have hP' : g'.player ≠ Tile.Empty := by
      rw [hgpl]
      cases hc : g.player with
      | X => simp [otherT]
      | O => simp [otherT]
      | Empty => exact absurd hc hP
    have hrec := ih h' hov hP'
    rw [hrec, hgpl]
    have hot : otherT (otherT g.player) = g.player := by
      cases hc : g.player with
      | X => rfl
      | O => rfl
      | Empty => exact absurd hc hP
    by_cases hpar : rest.length % 2 = 0
    · rw [if_pos hpar, if_neg (by simp only [List.length_cons]; omega)]
    · rw [if_neg hpar, if_pos (by simp only [List.length_cons]; omega), hot]

/-! ### Concrete states used to instantiate the theorems -/

/-- State after the single move 0: X in the top-left corner. -/
def after0 : Game :=
  { board := setCell emptyBoard 0 0 Tile.X,
    player := Tile.O, winner := Tile.Empty, turn := 1, over := false }

/-- State after the moves 0, 1. -/
def after01 : Game :=
  { board := setCell (setCell emptyBoard 0 0 Tile.X) 0 1 Tile.O,
    player := Tile.X, winner := Tile.Empty, turn := 2, over := false }

/-- State after the moves 0, 1, 3. -/
def after013 : Game :=
  { board := setCell (setCell (setCell emptyBoard 0 0 Tile.X) 0 1 Tile.O)
      1 0 Tile.X,
    player := Tile.O, winner := Tile.Empty, turn := 3, over := false }

/-- State after the moves 0, 1, 3, 2. -/
def after0132 : Game :=
  { board := setCell (setCell (setCell (setCell emptyBoard 0 0 Tile.X)
      0 1 Tile.O) 1 0 Tile.X) 0 2 Tile.O,
    player := Tile.X, winner := Tile.Empty, turn := 4, over := false }

/-- State after the moves 0, 1, 3, 2, 6: X wins the left column. -/
def colWin : Game :=
  { board := setCell (setCell (setCell (setCell (setCell emptyBoard
      0 0 Tile.X) 0 1 Tile.O) 1 0 Tile.X) 0 2 Tile.O) 2 0 Tile.X,
    player := Tile.X, winner := Tile.X, turn := 5, over := true }

/-- State after playing 5 on `colWin`: the mark lands, the win stands. -/
def colWinNext : Game :=
  { board := setCell (setCell (setCell (setCell (setCell (setCell emptyBoard
      0 0 Tile.X) 0 1 Tile.O) 1 0 Tile.X) 0 2 Tile.O) 2 0 Tile.X) 1 2 Tile.X,
    player := Tile.X, winner := Tile.X, turn := 6, over := true }

/-- State after the single move 4: X in the centre. -/
def afterCenter : Game :=
  { board := setCell emptyBoard 1 1 Tile.X,
    player := Tile.O, winner := Tile.Empty, turn := 1, over := false }

/-- Tie state reached by burning turns on occupied cells
(moves 0, 3, 1, 4, 0, 6, 0, 8, 0): `over` is set with three cells
still empty and no winner. -/
def burnTie : Game :=
  { board := setCell (setCell (setCell (setCell (setCell (setCell emptyBoard
      0 0 Tile.X) 1 0 Tile.O) 0 1 Tile.X) 1 1 Tile.O) 2 0 Tile.O) 2 2 Tile.O,
    player := Tile.X, winner := Tile.Empty, turn := 9, over := true }

/-- State after playing 2 on `burnTie`: the top row completes for X and
the winner flips from Empty to X although the game was already over. -/
def burnTieNext : Game :=
  { board := setCell (setCell (setCell (setCell (setCell (setCell (setCell
      emptyBoard 0 0 Tile.X) 1 0 Tile.O) 0 1 Tile.X) 1 1 Tile.O) 2 0 Tile.O)
      2 2 Tile.O) 0 2 Tile.X,
    player := Tile.X, winner := Tile.X, turn := 10, over := true }

/-! ### The claims -/

/-- C1: for every game state (turn counter in its 0–9 range) and every
in-range index whose targeted cell is occupied, `play` leaves the cell's
mark unchanged, increments the turn counter by exactly 1, and runs the
very same outcome evaluation (win check, tie check, player toggle) as if
a mark had been placed. -/
theorem occupied_move_runs_outcome (s : Game) (i : Nat) (hi : i ≤ 8)
    (ht : s.turn ≤ 9) (hocc : cellAt s i ≠ Tile.Empty) :
    s.play i = Game.evalOutcome { s with turn := s.turn + 1 } ∧
    ∀ g', s.play i = some g' →
      cellAt g' i = cellAt s i ∧ g'.turn = s.turn + 1 := by
  have hmark : s.markAt i = s := by
    unfold Game.markAt
    rw [if_neg hocc]
  have hmod : (s.turn + 1) % 256 = s.turn + 1 := by omega
  have hinc : (s.markAt i).incTurn = { s with turn := s.turn + 1 } := by
    rw [hmark]
    unfold Game.incTurn
    rw [hmod]
  constructor
  · rw [play_eq (by omega), hinc]
  · intro g' hp
    obtain ⟨hb, htn⟩ := play_board_turn hp
    constructor
    · show g'.board (rowIdx i) (colIdx i) = cellAt s i
      rw [hb, hmark]
      rfl
    · rw [htn]
      omega

/-- C1, instantiated: playing the occupied centre cell of `afterCenter`. -/
theorem occupied_move_runs_outcome_inst :
    afterCenter.play 4 =
      Game.evalOutcome { afterCenter with turn := afterCenter.turn + 1 } :=
  (occupied_move_runs_outcome afterCenter 4 (by decide) (by decide) (by decide)).1

/-- C2: on every reachable state, `play` with an in-range index evaluates
the outcome in priority order: if the mover owns a full line of the
post-mark board then winner and over are set (regardless of the turn
count, so a win on turn 9 is still a win); otherwise at turn 9 the game
ends in a tie with winner Empty; otherwise only the player toggles. -/
theorem play_priority_order (s : Game) (i : Nat) (g' : Game)
    (hr : Reachable s) (hi : i ≤ 8) (hp : s.play i = some g') :
    (hasLine (s.markAt i).board s.player →
      g'.winner = s.player ∧ g'.over = true) ∧
    (¬ hasLine (s.markAt i).board s.player →
      (s.turn + 1 = 9 → g'.over = true ∧ g'.winner = Tile.Empty) ∧
      (s.turn + 1 ≠ 9 → g'.player = otherT s.player ∧ g'.winner = s.winner ∧
        g'.over = s.over)) := by
  obtain ⟨hP, hC, hW, hO, hT⟩ := inv_of_reachableVia hr
  constructor
  · intro hL
    exact play_win hp (hasLine_isCompleteB hP hL)
  · intro hnL
    have hc : (s.markAt i).isComplete = false := by
      cases hcc : (s.markAt i).isComplete with
      | false => rfl
      | true => exact absurd (mark_hasLine_player i hP hC hcc) hnL
    have htie_iff : ((s.markAt i).incTurn).isTie = true ↔ s.turn + 1 = 9 := by
      unfold Game.isTie
      rw [mstate_turn]
      simp only [beq_iff_eq]
      constructor <;> intro h <;> omega
    rw [play_eq (by omega)] at hp
    constructor
    · intro ht9
      have htt : ((s.markAt i).incTurn).isTie = true := htie_iff.mpr ht9
      rw [evalOutcome_tie (show ((s.markAt i).incTurn).isComplete = false from hc)
        htt] at hp
      injection hp with hg
      subst hg
      refine ⟨rfl, ?_⟩
      show ((s.markAt i).incTurn).winner = Tile.Empty
      rw [mstate_winner]
      exact winner_empty_of_mark_incomplete i hP hW hc
    · intro ht9
      have htt : ((s.markAt i).incTurn).isTie = false := by
        cases h2 : ((s.markAt i).incTurn).isTie with
        | false => rfl
        | true => exact absurd (htie_iff.mp h2) ht9
      rw [evalOutcome_toggle (show ((s.markAt i).incTurn).isComplete = false from hc)
        htt, mstate_player] at hp
      cases hq : s.player with
      | X =>
        rw [hq] at hp
        injection hp with hg
        subst hg
        exact ⟨rfl, mstate_winner s i, mstate_over s i⟩
      | O =>
        rw [hq] at hp
        injection hp with hg
        subst hg
        exact ⟨rfl, mstate_winner s i, mstate_over s i⟩
      | Empty => exact absurd hq hP

/-- C2, instantiated: the very first move (index 4 from the fresh game)
takes the toggle branch and leaves the winner untouched. -/
theorem play_priority_order_inst : afterCenter.winner = Game.new.winner :=
  ((((play_priority_order Game.new 4 afterCenter ReachableVia.init (by decide)
      rfl).2 (by decide)).2) (by decide)).2.1

/-- C3, counterexample: `burnTie` is reachable (moves 0,3,1,4,0,6,0,8,0),
is over with winner Empty, yet the further in-range move 2 changes the
winner from Empty to X. -/
theorem over_winner_changes_cex :
    playSeq Game.new [0, 3, 1, 4, 0, 6, 0, 8, 0] = some burnTie ∧
    burnTie.over = true ∧ burnTie.winner = Tile.Empty ∧
    burnTie.play 2 = some burnTieNext ∧ burnTieNext.winner = Tile.X :=
  ⟨rfl, rfl, rfl, rfl, rfl⟩

/-- C3, amended: for every reachable state with `over = true`, any further
in-range `play` leaves `over` true, and leaves the winner unchanged
whenever the winner was already non-Empty (a further move from a
burned-turn tie state may still flip the winner from Empty to the active
player, as the counterexample shows). -/
theorem no_resurrection_amended (s : Game) (i : Nat) (g' : Game)
    (hr : Reachable s) (ho : s.over = true) (hi : i ≤ 8)
    (hp : s.play i = some g') :
    g'.over = true ∧ (s.winner ≠ Tile.Empty → g'.winner = s.winner) := by
  refine ⟨play_over_mono hp ho, ?_⟩
  intro hne
  obtain ⟨hP, hC, hW, hO, hT⟩ := inv_of_reachableVia hr
  obtain ⟨hw1, _, hw3⟩ := hW hne
  have hL : hasLine (s.markAt i).board s.player := by
    rw [← hw1]
    exact hasLine_markAt i hne hw3
  have hc : (s.markAt i).isComplete = true := hasLine_isCompleteB hP hL
  obtain ⟨hwin, _⟩ := play_win hp hc
  rw [hwin, hw1]

/-- C3 amended, instantiated: playing 5 on the finished game `colWin`
keeps winner X. -/
theorem no_resurrection_amended_inst : colWinNext.winner = colWin.winner :=
  (no_resurrection_amended colWin 5 colWinNext
    (reachable_playSeq (show playSeq Game.new [0, 1, 3, 2, 6] = some colWin from rfl)
      ReachableVia.init)
    (by decide) (by decide) rfl).2 (by decide)

/-- C4: `is_complete` returns true exactly when one of the 8 lines is
fully occupied by a single non-Empty mark.  (In the embedding
`Game.isComplete` is a pure function of the state, so it mutates
nothing.) -/
theorem is_complete_correct (g : Game) :
    g.isComplete = true ↔ SpecComplete g.board := by
  constructor
  · intro h
    rcases isCompleteB_hasLine h with ⟨i, hall⟩ | ⟨i, hall⟩
    · exact ⟨i, Tile.X, by decide, hall⟩
    · exact ⟨i, Tile.O, by decide, hall⟩
  · rintro ⟨i, t, ht, hall⟩
    exact hasLine_isCompleteB ht ⟨i, hall⟩

/-- C5: along legal play (in-range, empty targets, game not over), a move
after which one of the 8 lines is entirely X makes X the winner and ends
the game at once, whatever the rest of the board holds. -/
theorem win_detection_symmetry (s : Game) (i : Nat) (g' : Game) (l : Fin 8)
    (hr : ReachableVia legalP s) (hov : s.over = false) (hi : i ≤ 8)
    (he : cellAt s i = Tile.Empty) (hp : s.play i = some g')
    (hline : ∀ k : Fin 3, lineCells g'.board l k = Tile.X) :
    g'.winner = Tile.X ∧ g'.over = true := by
  obtain ⟨hP, hC, hW, hO, hT⟩ := inv_of_reachableVia hr
  have hnc : isCompleteB s.board = false := by
    simpa [Game.isComplete] using (hO hov).2
  obtain ⟨hb, _⟩ := play_board_turn hp
  have hmB : (s.markAt i).board = setCell s.board (rowIdx i) (colIdx i) s.player := by
    rw [markAt_board, if_pos he]
  rw [hb, hmB] at hline
  by_cases hex : ∃ k, linePos l k = (rowIdx i, colIdx i)
  · rcases hex with ⟨k0, hk⟩
    have h1 := hline k0
    rw [lineCells_pos, hk] at h1
    have hplX : s.player = Tile.X := by
      simpa [setCell_self] using h1
    have hcL : hasLine (s.markAt i).board Tile.X := ⟨l, by rw [hmB]; exact hline⟩
    have hcomp : (s.markAt i).isComplete = true :=
      hasLine_isCompleteB (by decide) hcL
    have hw := play_win hp hcomp
    rw [hplX] at hw
    exact hw
  · push_neg at hex
    exfalso
    have hlineb : hasLine s.board Tile.X := by
      refine ⟨l, fun k => ?_⟩
      rw [lineCells_pos]
      have h1 := hline k
      rw [lineCells_pos] at h1
      rw [setCell_ne _ _ _ _ _ _ (by
        intro hand
        exact hex k (Prod.ext hand.1 hand.2))] at h1
      exact h1
    exact absurd (hasLine_isCompleteB (by decide) hlineb) (by simp [hnc])

/-- C5, instantiated: completing the left column (line 3) with move 6
after 0,1,3,2 makes X the winner immediately. -/
theorem win_detection_symmetry_inst : colWin.winner = Tile.X :=
  (win_detection_symmetry after0132 6 colWin 3
    (ReachableVia.step
      (ReachableVia.step
        (ReachableVia.step
          (ReachableVia.step ReachableVia.init (by decide)
            (show legalP Game.new 0 by decide)
            (show Game.new.play 0 = some after0 from rfl))
          (by decide) (show legalP after0 1 by decide)
          (show after0.play 1 = some after01 from rfl))
        (by decide) (show legalP after01 3 by decide)
        (show after01.play 3 = some after013 from rfl))
      (by decide) (show legalP after013 2 by decide)
      (show after013.play 2 = some after0132 from rfl))
    (by decide) (by decide) (by decide)
    (show after0132.play 6 = some colWin from rfl) (by decide)).1

/-- C6: along any in-range move sequence from the fresh game during which
the game never ends, the active player after n moves is X for even n and
O for odd n. -/
theorem turn_alternation (ms : List Nat) (g : Game)
    (hms : ∀ m ∈ ms, m ≤ 8) (h : playSeq Game.new ms = some g)
    (hov : g.over = false) :
    g.player = if ms.length % 2 = 0 then Tile.X else Tile.O := by
  have hpar := playSeq_parity h hov (by decide)
  simpa [Game.new, otherT] using hpar

/-- C6, instantiated: after the two moves 0, 1 the active player is X
again. -/
theorem turn_alternation_inst :
    after01.player = if ([0, 1] : List Nat).length % 2 = 0 then Tile.X else Tile.O :=
  turn_alternation [0, 1] after01 (by decide) rfl (by decide)

/-- C7: along moves that always target an empty cell, the number of
non-Empty cells equals the turn counter. -/
theorem marks_match_turn (s : Game) (hr : ReachableVia emptyTargetP s) :
    countB s.board = s.turn := by
  induction hr with
  | init => decide
  | @step g g' i hprev hle hPm hp ih =>
    obtain ⟨hb, ht⟩ := play_board_turn hp
    have hP := (inv_of_reachableVia hprev).1
    have hmB : (g.markAt i).board = setCell g.board (rowIdx i) (colIdx i) g.player := by
      rw [markAt_board, if_pos hPm]
    have hcount : countB g'.board = countB g.board + 1 := by
      rw [hb, hmB]
      exact countB_setCell hPm hP
    have hle8 : countB g.board ≤ 8 := countB_le_eight hPm
    rw [hcount, ih, ht]
    omega

/-- C7, instantiated: after the single empty-target move 0, one cell is
marked and the turn counter is 1. -/
theorem marks_match_turn_inst : countB after0.board = after0.turn :=
  marks_match_turn after0
    (ReachableVia.step ReachableVia.init (by decide)
      (show emptyTargetP Game.new 0 by decide)
      (show Game.new.play 0 = some after0 from rfl))

/-- C8: `is_tie` returns true exactly when the turn counter is 9, and it
depends on nothing but the turn counter.  (In the embedding it is a pure
function of the state, so it mutates nothing.) -/
theorem is_tie_correct (g : Game) :
    (g.isTie = true ↔ g.turn = 9) ∧
    (∀ b p w o, Game.isTie
      { board := b, player := p, winner := w, turn := g.turn, over := o } =
        g.isTie) := by
  constructor
  · unfold Game.isTie
    simp
  · intro b p w o
    rfl

/-- C9: from any state reached by in-range moves never issued after the
game was over, a further in-range `play` cannot fail: it returns a state
(no panic), the active player is a real mark (the `Empty`-player panic
branch is unreachable), the `u8` turn increment cannot overflow, and the
flat index maps to in-bounds row and column indices. -/
theorem play_never_fails (s : Game) (i : Nat) (hr : ReachableVia notOverP s)
    (hi : i ≤ 8) :
    (∃ g', s.play i = some g') ∧ s.player ≠ Tile.Empty ∧ s.turn + 1 ≤ 255 ∧
    i / 3 < 3 ∧ i % 3 < 3 := by
  have hP := (inv_of_reachableVia hr).1
  have hturn : s.turn ≤ 9 := (turn_bound_notOver hr).1
  exact ⟨play_isSome hP hi, hP, by omega, by omega, by omega⟩

/-- C9, instantiated: the fresh game accepts the move 0 safely. -/
theorem play_never_fails_inst : Game.new.player ≠ Tile.Empty ∧
    Game.new.turn + 1 ≤ 255 :=
  ⟨(play_never_fails Game.new 0 ReachableVia.init (by decide)).2.1,
   (play_never_fails Game.new 0 ReachableVia.init (by decide)).2.2.1⟩

/-- C10: `play` never touches a cell other than the one at row
`index / 3`, column `index % 3`: every other cell keeps its mark. -/
theorem play_frame (s : Game) (i : Nat) (g' : Game) (hi : i ≤ 8)
    (hp : s.play i = some g') (r c : Fin 3)
    (hne : ¬((r : Nat) = i / 3 ∧ (c : Nat) = i % 3)) :
    g'.board r c = s.board r c := by
  obtain ⟨hb, _⟩ := play_board_turn hp
  rw [hb, markAt_board]
  split
  · apply setCell_ne
    intro hand
    refine hne ⟨?_, ?_⟩
    · have h1 : (r : Nat) = (rowIdx i : Nat) := congrArg Fin.val hand.1
      simp only [rowIdx] at h1
      omega
    · have h2 : (c : Nat) = (colIdx i : Nat) := congrArg Fin.val hand.2
      simpa only [colIdx] using h2
  · rfl

/-- C10, instantiated: move 4 from the fresh game leaves the corner cell
(0, 0) untouched. -/
theorem play_frame_inst : afterCenter.board 0 0 = Game.new.board 0 0 :=
  play_frame Game.new 4 afterCenter (by decide)
    (show Game.new.play 4 = some afterCenter from rfl) 0 0 (by decide)

end TicTacToe
